import Mathlib

/-!
Shallow embedding of the request routers of the `hawx/mux` repository
(`mux.go`, the revision whose media-type handling goes through Go's
`mime.ParseMediaType`; this is the revision exercised by `mux_test.go`).

The three routers `Method`, `ContentType` and `Accept` are Go maps from
string keys to handlers.  A Go map is embedded as an association list
`List (String × H)` whose list order stands for the (unspecified) map
iteration order; `H` is the opaque handler type.  Handlers are never run:
a dispatch returns which handler was selected, or which status code and
headers were written.

Library calls made by `mux.go` are embedded as executable Lean functions:
`strings.Split`, `strings.Trim`, `strings.ToUpper`, `strings.Join`,
`sort.Strings`, `sort.Sort`, `strconv.ParseFloat` and
`mime.ParseMediaType`.  Modelling notes:

* Case conversion is modelled on ASCII (Go applies full Unicode folding;
  every media type and method in the routers' domain is ASCII).
* `float32` quality values are modelled as exact rationals.  The decimal
  strings compared in this development have few significant digits, and
  conversion to `float32` is monotone, so every comparison made by the
  code agrees with the rational comparison.  The model of
  `strconv.ParseFloat` accepts plain decimal forms (sign, digits,
  fraction, exponent); Go additionally accepts hexadecimal floats,
  `inf`/`nan` and digit-separating underscores, and reports a range error
  for values overflowing `float32` — none of which are reachable from the
  properties below.
* `mime.ParseMediaType` is modelled including its token/quoted-string
  parameter syntax and duplicate-parameter error.  Parameters whose name
  contains `*` (RFC 2231 continuations) are diverted away from the
  parameter map exactly as in Go, but the final recombination
  ("stitching") of such continuations is not modelled; no property below
  involves such parameters.
* `sort.Sort` runs plain insertion sort (bubbling each element leftwards)
  for slices of at most 12 elements, which `goSortSmall` reproduces
  exactly.  The `byQuality` comparator is not a strict weak order, so for
  longer slices Go's pdqsort is only constrained where the comparator is
  consistent; every ordering fact proved below holds for any correct
  comparison sort in that situation, and every concrete evaluation uses
  well under 12 clauses.
-/

/-- Characters Go's `unicode.IsSpace` reports as space, restricted to the
Latin-1 range (the only characters reachable from the ASCII header values
the routers handle). -/
def isGoSpace (c : Char) : Bool :=
  c.toNat == 32 || (9 ≤ c.toNat && c.toNat ≤ 13) || c.toNat == 133 || c.toNat == 160

/-- ASCII lower-casing of one character, the fragment of Go's
`strings.ToLower` used by `mime.ParseMediaType` on media types. -/
def goLowerChar (c : Char) : Char :=
  if 65 ≤ c.toNat && c.toNat ≤ 90 then Char.ofNat (c.toNat + 32) else c

/-- ASCII upper-casing of one character, the fragment of Go's
`strings.ToUpper` used by `Method.ServeHTTP` on request methods. -/
def goUpperChar (c : Char) : Char :=
  if 97 ≤ c.toNat && c.toNat ≤ 122 then Char.ofNat (c.toNat - 32) else c

/-- Model of `strings.ToUpper` (ASCII fragment). -/
def goToUpper (s : String) : String := String.mk (s.data.map goUpperChar)

/-- Helper for `splitOnChar`: returns the first separator-free segment of
the list together with the remaining segments. -/
def splitAux (c : Char) : List Char → List Char × List (List Char)
  | [] => ([], [])
  | x :: xs =>
    match splitAux c xs with
    | (seg, rest) => if x == c then ([], seg :: rest) else (x :: seg, rest)

/-- Model of Go's `strings.Split` for a one-character separator: the list
of separator-free segments.  Always returns at least one segment
(`strings.Split("", sep) = [""]`). -/
def splitOnChar (c : Char) (l : List Char) : List (List Char) :=
  match splitAux c l with
  | (seg, rest) => seg :: rest

/-- `strings.Split` on `String`s, for a one-character separator. -/
def goSplit (s : String) (c : Char) : List String :=
  (splitOnChar c s.data).map String.mk

/-- The part of `s` before the first occurrence of `c` (the whole of `s`
when `c` does not occur): `strings.SplitN(s, c, 2)[0]`, and also the
`before` component of `strings.Cut`. -/
def cutBefore (s : String) (c : Char) : String :=
  String.mk (s.data.takeWhile (fun x => x != c))

/-- Drops characters satisfying `p` from both ends of a list; used for
Go's `strings.Trim` / `strings.TrimSpace`. -/
def dropAround (p : Char → Bool) (l : List Char) : List Char :=
  ((l.dropWhile p).reverse.dropWhile p).reverse

/-- Model of `strings.Trim(s, " ")`: spaces (only `' '`) removed from both
ends. -/
def goTrimBlanks (s : String) : String :=
  String.mk (dropAround (fun c => c == ' ') s.data)

/-- Go `mime` package: the `tspecials` characters. -/
def isTSpecial (c : Char) : Bool :=
  c ∈ ['(', ')', '<', '>', '@', ',', ';', ':', '\\', '"', '/', '[', ']', '?', '=']

/-- Go `mime` package: characters allowed in a token. -/
def isTokenChar (c : Char) : Bool :=
  32 < c.toNat && c.toNat < 127 && !(isTSpecial c)

/-- Go `mime.consumeToken`: the longest token prefix and the rest. -/
def consumeToken (v : List Char) : List Char × List Char :=
  (v.takeWhile isTokenChar, v.dropWhile isTokenChar)

/-- Go `mime.checkMediaTypeDisposition`: a media type is a token,
optionally followed by `/` and a second token. -/
def checkMediaTypeDisposition (s : List Char) : Bool :=
  match consumeToken s with
  | (typ, rest) =>
    if typ.isEmpty then false
    else
      match rest with
      | [] => true
      | '/' :: r1 =>
        match consumeToken r1 with
        | (sub, rest2) => !sub.isEmpty && rest2.isEmpty
      | _ => false

/-- Quoted-string body of Go `mime.consumeValue`: scan up to the closing
quote, unescaping a backslash only before a tspecial character; `none` on
a bare CR/LF or a missing closing quote. -/
def consumeQuoted : List Char → List Char → Option (List Char × List Char)
  | [], _ => none
  | '"' :: rest, acc => some (acc.reverse, rest)
  | '\\' :: c2 :: rest2, acc =>
    if isTSpecial c2 then consumeQuoted rest2 (c2 :: acc)
    else consumeQuoted (c2 :: rest2) ('\\' :: acc)
  | ['\\'], _ => none
  | c :: rest, acc =>
    if c == '\r' || c == '\n' then none
    else consumeQuoted rest (c :: acc)

/-- Go `mime.consumeValue`: a token, or a quoted string.  Failure is
signalled as in Go by returning an empty value together with the input
unchanged. -/
def consumeValue (v : List Char) : List Char × List Char :=
  match v with
  | [] => ([], [])
  | x :: rest =>
    if x == '"' then
      match consumeQuoted rest [] with
      | some (val, r) => (val, r)
      | none => ([], v)
    else consumeToken v

/-- Go `mime.consumeMediaParam`: one `;key=value` parameter (keys
lower-cased); failure is signalled by an empty key and the input returned
unchanged. -/
def consumeMediaParam (v : List Char) : List Char × List Char × List Char :=
  let rest := v.dropWhile isGoSpace
  match rest with
  | ';' :: r1 =>
    let r2 := r1.dropWhile isGoSpace
    match consumeToken r2 with
    | (param, r3) =>
      let param := param.map goLowerChar
      if param.isEmpty then ([], [], v)
      else
        let r4 := r3.dropWhile isGoSpace
        match r4 with
        | '=' :: r5 =>
          let r6 := r5.dropWhile isGoSpace
          match consumeValue r6 with
          | (value, r7) =>
            if value.isEmpty && r7 == r6 then ([], [], v)
            else (param, value, r7)
        | _ => ([], [], v)
  | _ => ([], [], v)

/-- Parameter loop of Go `mime.ParseMediaType`.  `ps` accumulates ordinary
parameters, `cont` the RFC 2231 continuation parameters (names containing
`*`), which Go diverts away from the parameter map; their final
recombination is not modelled.  The fuel argument only bounds the
recursion; each iteration consumes at least the `;`, so `length + 1` fuel
can never run out. -/
def paramsLoop : Nat → List Char → List (String × String) → List (String × String) →
    Option (List (String × String))
  | 0, _, _, _ => none
  | fuel + 1, v, ps, cont =>
    if v.isEmpty then some ps
    else
      let v1 := v.dropWhile isGoSpace
      if v1.isEmpty then some ps
      else
        match consumeMediaParam v1 with
        | (key, value, rest) =>
          if key.isEmpty then
            if dropAround isGoSpace rest == [';'] then some ps else none
          else
            let keyS := String.mk key
            let valueS := String.mk value
            if key.contains '*' then
              match cont.lookup keyS with
              | some v0 => if v0 == valueS then paramsLoop fuel rest ps cont else none
              | none => paramsLoop fuel rest ps ((keyS, valueS) :: cont)
            else
              match ps.lookup keyS with
              | some v0 => if v0 == valueS then paramsLoop fuel rest ps cont else none
              | none => paramsLoop fuel rest (ps ++ [(keyS, valueS)]) cont

/-- Model of Go `mime.ParseMediaType`: the media type before the first
`;`, lower-cased and trimmed, checked by `checkMediaTypeDisposition`,
together with its `key=value` parameters.  `none` models a non-nil
error.  (Go returns a partial result along with some errors; every caller
in `mux.go` discards the result whenever the error is non-nil, so `Option`
is a faithful embedding.) -/
def parseMediaType (s : String) : Option (String × List (String × String)) :=
  let v := s.data
  let base := v.takeWhile (fun x => x != ';')
  let mediatype := dropAround isGoSpace (base.map goLowerChar)
  if checkMediaTypeDisposition mediatype then
    match paramsLoop (v.length + 1) (v.drop base.length) [] [] with
    | some ps => some (String.mk mediatype, ps)
    | none => none
  else none

/-- Numeric value of a digit string. -/
def digitsVal (l : List Char) : Nat :=
  l.foldl (fun a c => a * 10 + (c.toNat - 48)) 0

/-- Model of `strconv.ParseFloat` on plain decimal inputs, as an exact
rational: optional sign, integer digits, optional fraction, optional
decimal exponent; at least one mantissa digit is required.  The value
`±(ip.fp)·10^(±ed)` is assembled with `mkRat` from integer arithmetic.
See the header note for the Go forms deliberately left out. -/
def goParseFloat (s : String) : Option ℚ :=
  let l := s.data
  let sgn : Int := match l with
    | '-' :: _ => -1
    | _ => 1
  let l1 : List Char := match l with
    | '+' :: r => r
    | '-' :: r => r
    | _ => l
  let ip := l1.takeWhile Char.isDigit
  let r1 := l1.dropWhile Char.isDigit
  let fp : List Char := match r1 with
    | '.' :: r => r.takeWhile Char.isDigit
    | _ => []
  let r2 : List Char := match r1 with
    | '.' :: r => r.dropWhile Char.isDigit
    | _ => r1
  if ip.isEmpty && fp.isEmpty then none
  else
    let num : Int := sgn * ((digitsVal ip * 10 ^ fp.length + digitsVal fp : Nat) : Int)
    let den : Nat := 10 ^ fp.length
    match r2 with
    | [] => some (mkRat num den)
    | e :: r3 =>
      if e == 'e' || e == 'E' then
        let epos : Bool := match r3 with
          | '-' :: _ => false
          | _ => true
        let r4 : List Char := match r3 with
          | '+' :: r => r
          | '-' :: r => r
          | _ => r3
        let ed := r4.takeWhile Char.isDigit
        let r5 := r4.dropWhile Char.isDigit
        if ed.isEmpty || !r5.isEmpty then none
        else if epos then some (mkRat (num * ((10 ^ digitsVal ed : Nat) : Int)) den)
        else some (mkRat num (den * 10 ^ digitsVal ed))
      else none

/-- The `clause` struct of `mux.go`: one parsed segment of an `Accept`
header.  `quality` models the `float32` field as an exact rational. -/
structure Clause where
  type : String
  subtype : String
  quality : ℚ
deriving DecidableEq, Repr

/-- `byQuality.Less` from `mux.go`: higher quality first, and a clause
with concrete type (resp. subtype) before one whose type (resp. subtype)
is the wildcard `"*"`. -/
def byQualityLess (a b : Clause) : Bool :=
  decide (b.quality < a.quality) ||
    (a.type != "*" && b.type == "*") ||
    (a.subtype != "*" && b.subtype == "*")

/-- `parseContentType` from `mux.go` (the `mime.ParseMediaType` revision):
parse the segment, read the `q` parameter (default `1.0`), and require the
media type to split into exactly two `/`-separated parts. -/
def parseContentType (s : String) : Option Clause :=
  match parseMediaType s with
  | none => none
  | some (mediaType, params) =>
    let q : Option ℚ :=
      match params.lookup "q" with
      | none => some 1
      | some qs => goParseFloat qs
    match q with
    | none => none
    | some qv =>
      match goSplit mediaType '/' with
      | [t, sub] => some ⟨t, sub, qv⟩
      | _ => none

/-- `parseContentTypeList` from `mux.go`: trim blanks, treat the empty
string as no clauses, split on `,` and keep the segments that parse
(malformed segments are silently dropped). -/
def parseContentTypeList (s : String) : List Clause :=
  let s1 := goTrimBlanks s
  if s1.data.isEmpty then []
  else (goSplit s1 ',').filterMap parseContentType

/-- One step of Go's `insertionSort`: the new element `x` bubbles leftwards
through the already-sorted prefix (given reversed) while `less x prev`. -/
def bubbleRev {α : Type} (less : α → α → Bool) : List α → α → List α
  | [], x => [x]
  | y :: ys, x => if less x y then y :: bubbleRev less ys x else x :: y :: ys

/-- Model of `sort.Sort`: Go's `insertionSort`, which `sort.Sort` executes
verbatim for slices of at most 12 elements (see the header note on longer
slices). -/
def goSortSmall {α : Type} (less : α → α → Bool) (l : List α) : List α :=
  (l.foldl (bubbleRev less) []).reverse

/-- Lexicographic strict comparison of character lists, the order Go's
`sort.Strings` sorts by (Go compares bytes; on the ASCII strings the
routers handle, byte order and character order agree). -/
def listLtChars : List Char → List Char → Bool
  | [], [] => false
  | [], _ :: _ => true
  | _ :: _, [] => false
  | a :: as, b :: bs => if a < b then true else if b < a then false else listLtChars as bs

/-- Go's `<` on strings, used by `sort.Strings`. -/
def stringLtGo (a b : String) : Bool := listLtChars a.data b.data

/-- Model of `sort.Strings`: ascending lexicographic sort.  `sort.Strings`
is an unstable comparison sort over the total order `<` on strings, so its
output is the unique sorted rearrangement of the input, which the Go
insertion sort over the same comparison also produces. -/
def sortStrings (l : List String) : List String :=
  goSortSmall stringLtGo l

/-- Go map lookup `route[k]` on the association-list embedding. -/
def mapGet {H : Type} : List (String × H) → String → Option H
  | [], _ => none
  | p :: rest, k => if p.1 == k then some p.2 else mapGet rest k

/-- The narrow request view consumed by the routers: method, the two
headers they read, and an opaque body.  `http.Header.Get` returns `""`
for an absent header, so absent headers are the empty string. -/
structure Request where
  method : String
  contentTypeHeader : String
  acceptHeader : String
  body : String

/-- Outcome of `Method.ServeHTTP`: either a handler is invoked, or no
match was found and the sorted method list is written to the response
header named `Accept`, with status `405` written unless the method is
`OPTIONS` (`status = none` models leaving the default success status). -/
inductive MethodResult (H : Type) where
  | handled (h : H)
  | noMatch (allowedHeader : String) (status : Option Nat)
deriving DecidableEq, Repr

/-- `http.StatusMethodNotAllowed`. -/
def statusMethodNotAllowed : Nat := 405

/-- `http.StatusUnsupportedMediaType`. -/
def statusUnsupportedMediaType : Nat := 415

/-- `http.StatusNotAcceptable`. -/
def statusNotAcceptable : Nat := 406

/-- `Method.ServeHTTP` from `mux.go`: upper-case the method, dispatch on
an exact key match; otherwise advertise the registered keys plus
`"OPTIONS"`, sorted and comma-joined, in the `Accept` response header, and
write `405` unless the method is `OPTIONS`. -/
def methodServeHTTP {H : Type} (route : List (String × H)) (r : Request) : MethodResult H :=
  let method := goToUpper r.method
  match mapGet route method with
  | some handler => .handled handler
  | none =>
    let ks := route.map Prod.fst ++ ["OPTIONS"]
    let hdr := String.intercalate "," (sortStrings ks)
    .noMatch hdr (if method != "OPTIONS" then some statusMethodNotAllowed else none)

/-- Outcome of `ContentType.ServeHTTP` / the terminal part of
`Accept.ServeHTTP`: a handler, or a written status code. -/
inductive CTResult (H : Type) where
  | handled (h : H)
  | status (code : Nat)
deriving DecidableEq, Repr

/-- The lookup key of `ContentType.ServeHTTP`: the parsed media type, or
the raw header when `mime.ParseMediaType` fails. -/
def resolveMediaType (header : String) : String :=
  match parseMediaType header with
  | some (mt, _) => mt
  | none => header

/-- `strings.HasSuffix(k, "/*")` together with `k[:len(k)-2]`: the
stripped prefix when `k` ends in `/*`. -/
def splitSuffixWild (k : String) : Option String :=
  match k.data.reverse with
  | a :: b :: rest =>
    if a == '*' && b == '/' then some (String.mk rest.reverse) else none
  | _ => none

/-- The `possibleTypes` map of `ContentType.ServeHTTP`: every registered
key ending in `/*`, stripped of that suffix. -/
def possibleTypes {H : Type} (route : List (String × H)) : List (String × H) :=
  route.filterMap (fun p => (splitSuffixWild p.1).map (fun t => (t, p.2)))

/-- `ContentType.ServeHTTP` from `mux.go`: parse the `Content-Type` header
(falling back to the raw string on error), then try an exact key, then a
`type/*` key with the same type, then `*/*`, and otherwise write `415`. -/
def contentTypeServeHTTP {H : Type} (route : List (String × H)) (r : Request) : CTResult H :=
  let mediaType := resolveMediaType r.contentTypeHeader
  match mapGet route mediaType with
  | some h => .handled h
  | none =>
    match mapGet (possibleTypes route) (cutBefore mediaType '/') with
    | some h => .handled h
    | none =>
      match mapGet route "*/*" with
      | some h => .handled h
      | none => .status statusUnsupportedMediaType

/-- Outcome of `Accept.ServeHTTP`.  `crash` records the run-time panic of
`rsplit[1]` when a registered key contains no `/` and a clause's type
equals the whole key. -/
inductive AcceptResult (H : Type) where
  | handled (h : H)
  | status (code : Nat)
  | crash
deriving DecidableEq, Repr

/-- The clause-against-key match of `Accept.ServeHTTP`'s inner loop,
including Go's evaluation order: `rsplit[1]` is only reached (and only
able to panic, modelled as `none`) when the clause type equals
`rsplit[0]`. -/
def clauseMatches (ct : Clause) (key : String) : Option Bool :=
  let rsplit := goSplit key '/'
  let r0 := rsplit.headD ""
  if ct.type == r0 then
    match rsplit.get? 1 with
    | none => none
    | some r1 =>
      some (ct.subtype == r1 || ct.subtype == "*" || (ct.type == "*" && ct.subtype == "*"))
  else some (ct.type == "*" && ct.subtype == "*")

/-- The inner loop of `Accept.ServeHTTP`: scan the route table in
iteration order for the first key the clause matches.  `none` models the
panic; `some none` means no key matched. -/
def findHandler {H : Type} (ct : Clause) : List (String × H) → Option (Option H)
  | [] => some none
  | p :: rest =>
    match clauseMatches ct p.1 with
    | none => none
    | some true => some (some p.2)
    | some false => findHandler ct rest

/-- The outer loop of `Accept.ServeHTTP` over the quality-ordered clauses,
with the `*/*` fallback and the `406` status after it. -/
def acceptDispatch {H : Type} (route : List (String × H)) : List Clause → AcceptResult H
  | [] =>
    match mapGet route "*/*" with
    | some h => .handled h
    | none => .status statusNotAcceptable
  | ct :: rest =>
    match findHandler ct route with
    | none => .crash
    | some (some h) => .handled h
    | some none => acceptDispatch route rest

/-- `Accept.ServeHTTP` from `mux.go`: parse the `Accept` header into
clauses, order them with `byQuality`, and dispatch. -/
def acceptServeHTTP {H : Type} (route : List (String × H)) (r : Request) : AcceptResult H :=
  acceptDispatch route (goSortSmall byQualityLess (parseContentTypeList r.acceptHeader))

/-- Resolution order of the ContentType router as the specification states
it: exact key on the normalized `type/subtype`, else a registered
`type/*` key whose prefix equals the request's type, else `*/*`, else
`415` — written with direct key lookups rather than the `possibleTypes`
intermediate map, to be compared with `contentTypeServeHTTP`. -/
def specContentTypeResolve {H : Type} (route : List (String × H)) (header : String) : CTResult H :=
  let mt := resolveMediaType header
  match mapGet route mt with
  | some h => .handled h
  | none =>
    match mapGet route (cutBefore mt '/' ++ "/*") with
    | some h => .handled h
    | none =>
      match mapGet route "*/*" with
      | some h => .handled h
      | none => .status statusUnsupportedMediaType

/-! ### Helper lemmas: strings and `splitOnChar` -/

theorem data_mk (l : List Char) : (String.mk l).data = l := rfl

theorem data_append (s t : String) : (s ++ t).data = s.data ++ t.data := rfl

theorem string_eq_of_data {s t : String} (h : s.data = t.data) : s = t := by
  cases s; cases t; exact congrArg String.mk h

theorem splitAux_join (c : Char) (l : List Char) :
    (splitAux c l).1 ++ (((splitAux c l).2).map (fun r => c :: r)).flatten = l := by
  induction l with
  | nil => rfl
  | cons x xs ih =>
    simp only [splitAux]
    rcases h : splitAux c xs with ⟨seg, rest⟩
    rw [h] at ih
    by_cases hx : x = c
    · simp only [hx, beq_self_eq_true, if_true]
      simpa using ih
    · have hx2 : (x == c) = false := by simpa using hx
      simp only [hx2, Bool.false_eq_true, if_false]
      simpa using ih

theorem splitAux_fst_not_mem (c : Char) (l : List Char) : c ∉ (splitAux c l).1 := by
  induction l with
  | nil => simp [splitAux]
  | cons x xs ih =>
    simp only [splitAux]
    rcases h : splitAux c xs with ⟨seg, rest⟩
    rw [h] at ih
    by_cases hx : x = c
    · simp [hx]
    · have hx2 : (x == c) = false := by simpa using hx
      simp only [hx2, Bool.false_eq_true, if_false]
      simp only [List.mem_cons, not_or]
      exact ⟨fun hc => hx hc.symm, ih⟩

theorem splitAux_snd_not_mem (c : Char) (l : List Char) :
    ∀ r ∈ (splitAux c l).2, c ∉ r := by
  induction l with
  | nil => simp [splitAux]
  | cons x xs ih =>
    simp only [splitAux]
    rcases h : splitAux c xs with ⟨seg, rest⟩
    rw [h] at ih
    have hfst := splitAux_fst_not_mem c xs
    rw [h] at hfst
    by_cases hx : x = c
    · simp only [hx, beq_self_eq_true, if_true]
      intro r hr
      rcases List.mem_cons.mp hr with h1 | h1
      · exact h1 ▸ hfst
      · exact ih r h1
    · have hx2 : (x == c) = false := by simpa using hx
      simp only [hx2, Bool.false_eq_true, if_false]
      exact ih

theorem splitOnChar_pair {c : Char} {l A B : List Char} (h : splitOnChar c l = [A, B]) :
    l = A ++ c :: B ∧ c ∉ A ∧ c ∉ B := by
  have hj := splitAux_join c l
  have hf := splitAux_fst_not_mem c l
  have hs := splitAux_snd_not_mem c l
  unfold splitOnChar at h
  rcases hsp : splitAux c l with ⟨seg, rest⟩
  rw [hsp] at h hj hf hs
  simp only [List.cons.injEq] at h
  obtain ⟨hseg, hrest⟩ := h
  subst hseg; subst hrest
  refine ⟨?_, hf, hs B (by simp)⟩
  simpa using hj.symm

theorem sep_append_inj (c : Char) (t : List Char) : ∀ (T s S : List Char), c ∉ t → c ∉ s →
    t ++ c :: s = T ++ c :: S → t = T ∧ s = S := by
  induction t with
  | nil =>
    intro T s S _ hs h
    cases T with
    | nil => simpa using h
    | cons T0 T1 =>
      simp only [List.nil_append, List.cons_append, List.cons.injEq] at h
      refine absurd ?_ hs
      rw [h.2]
      simp
  | cons t0 t1 ih =>
    intro T s S ht hs h
    cases T with
    | nil =>
      simp only [List.nil_append, List.cons_append, List.cons.injEq] at h
      refine absurd ?_ ht
      rw [h.1]
      exact List.mem_cons_self _ _
    | cons T0 T1 =>
      simp only [List.cons_append, List.cons.injEq] at h
      obtain ⟨h0, h1⟩ := h
      obtain ⟨e1, e2⟩ := ih T1 s S (fun hm => ht (List.mem_cons_of_mem _ hm)) hs h1
      exact ⟨by rw [h0, e1], e2⟩

/-! ### Helper lemmas: map lookup on the association-list embedding -/

theorem mapGet_eq_none_iff {H : Type} (l : List (String × H)) (k : String) :
    mapGet l k = none ↔ k ∉ l.map Prod.fst := by
  induction l with
  | nil => simp [mapGet]
  | cons p rest ih =>
    by_cases hk : p.1 = k
    · simp [mapGet, hk]
    · have hk2 : (p.1 == k) = false := by simpa using hk
      simp only [mapGet, hk2, Bool.false_eq_true, if_false, List.map_cons, List.mem_cons]
      rw [ih]
      constructor
      · intro h hc
        rcases hc with hc | hc
        · exact hk hc.symm
        · exact h hc
      · intro h hc
        exact h (Or.inr hc)

theorem mapGet_some_mem {H : Type} {l : List (String × H)} {k : String} {v : H}
    (h : mapGet l k = some v) : (k, v) ∈ l := by
  induction l with
  | nil => simp [mapGet] at h
  | cons p rest ih =>
    by_cases hk : p.1 = k
    · simp only [mapGet, hk, beq_self_eq_true, if_true, Option.some.injEq] at h
      have he : (k, v) = p := by rw [← hk, ← h]
      rw [he]
      exact List.mem_cons_self _ _
    · have hk2 : (p.1 == k) = false := by simpa using hk
      simp only [mapGet, hk2, Bool.false_eq_true, if_false] at h
      exact List.mem_cons_of_mem _ (ih h)

theorem mapGet_eq_some_iff {H : Type} {l : List (String × H)}
    (hn : (l.map Prod.fst).Nodup) (k : String) (v : H) :
    mapGet l k = some v ↔ (k, v) ∈ l := by
  refine ⟨mapGet_some_mem, ?_⟩
  induction l with
  | nil => simp
  | cons p rest ih =>
    simp only [List.map_cons, List.nodup_cons] at hn
    intro hm
    rcases List.mem_cons.mp hm with hm | hm
    · rw [← hm]
      simp [mapGet]
    · have hk : p.1 ≠ k := by
        intro he
        exact hn.1 (he ▸ (List.mem_map.mpr ⟨(k, v), hm, rfl⟩))
      have hk2 : (p.1 == k) = false := by simpa using hk
      simp only [mapGet, hk2, Bool.false_eq_true, if_false]
      exact ih hn.2 hm

theorem mapGet_perm {H : Type} {l1 l2 : List (String × H)} (hp : l1.Perm l2)
    (hn : (l1.map Prod.fst).Nodup) (k : String) : mapGet l1 k = mapGet l2 k := by
  have hn2 : (l2.map Prod.fst).Nodup := (hp.map Prod.fst).nodup_iff.mp hn
  cases h1 : mapGet l1 k with
  | some v =>
    have := hp.mem_iff.mp (mapGet_some_mem h1)
    exact ((mapGet_eq_some_iff hn2 k v).mpr this).symm
  | none =>
    have hk : k ∉ l1.map Prod.fst := (mapGet_eq_none_iff l1 k).mp h1
    have hk2 : k ∉ l2.map Prod.fst := fun hc => hk ((hp.map Prod.fst).mem_iff.mpr hc)
    exact ((mapGet_eq_none_iff l2 k).mpr hk2).symm

/-! ### Helper lemmas: the Accept matching loops -/

theorem clauseMatches_ne_none {ct : Clause} {key : String}
    (h2 : 2 ≤ (goSplit key '/').length) : clauseMatches ct key ≠ none := by
  unfold clauseMatches
  by_cases hct : (ct.type == (goSplit key '/').headD "") = true
  · simp only [hct, if_true]
    cases hg : (goSplit key '/').get? 1 with
    | none =>
      rw [List.get?_eq_none] at hg
      omega
    | some r1 => simp
  · simp only [hct, if_false]
    simp

theorem findHandler_ne_none {H : Type} {route : List (String × H)} {ct : Clause}
    (hw : ∀ k ∈ route.map Prod.fst, 2 ≤ (goSplit k '/').length) :
    findHandler ct route ≠ none := by
  induction route with
  | nil => simp [findHandler]
  | cons p rest ih =>
    have h1 : clauseMatches ct p.1 ≠ none :=
      clauseMatches_ne_none (hw p.1 (by simp))
    unfold findHandler
    cases hm : clauseMatches ct p.1 with
    | none => exact absurd hm h1
    | some b =>
      cases b with
      | true => simp
      | false =>
        simp only
        exact ih (fun k hk => hw k (List.mem_cons_of_mem _ hk))

theorem findHandler_eq_some_some {H : Type} {route : List (String × H)} {ct : Clause} {h : H}
    (hf : findHandler ct route = some (some h)) :
    ∃ k, (k, h) ∈ route ∧ clauseMatches ct k = some true := by
  induction route with
  | nil => simp [findHandler] at hf
  | cons p rest ih =>
    unfold findHandler at hf
    cases hm : clauseMatches ct p.1 with
    | none => rw [hm] at hf; simp at hf
    | some b =>
      rw [hm] at hf
      cases b with
      | true =>
        simp only [Option.some.injEq] at hf
        exact ⟨p.1, by rw [← hf]; simp, hm⟩
      | false =>
        obtain ⟨k, hk, hmk⟩ := ih hf
        exact ⟨k, List.mem_cons_of_mem _ hk, hmk⟩

theorem findHandler_eq_some_none_iff {H : Type} (route : List (String × H)) (ct : Clause) :
    findHandler ct route = some none ↔ ∀ p ∈ route, clauseMatches ct p.1 = some false := by
  induction route with
  | nil => simp [findHandler]
  | cons p rest ih =>
    unfold findHandler
    cases hm : clauseMatches ct p.1 with
    | none =>
      simp only [List.mem_cons]
      constructor
      · intro h; simp at h
      · intro h
        have hq := h p (Or.inl rfl)
        rw [hm] at hq
        simp at hq
    | some b =>
      cases b with
      | true =>
        simp only [List.mem_cons]
        constructor
        · intro h; simp at h
        · intro h
          have hq := h p (Or.inl rfl)
          rw [hm] at hq
          simp at hq
      | false =>
        simp only [List.mem_cons]
        rw [ih]
        constructor
        · intro h q hq
          rcases hq with hq | hq
          · rw [hq]; exact hm
          · exact h q hq
        · intro h q hq
          exact h q (Or.inr hq)

theorem acceptDispatch_ne_crash {H : Type} {route : List (String × H)}
    (hw : ∀ k ∈ route.map Prod.fst, 2 ≤ (goSplit k '/').length) (cl : List Clause) :
    acceptDispatch route cl ≠ .crash ∧
      ((∃ h, acceptDispatch route cl = .handled h) ∨
        acceptDispatch route cl = .status statusNotAcceptable) := by
  induction cl with
  | nil =>
    unfold acceptDispatch
    cases hg : mapGet route "*/*" with
    | some h => exact ⟨by simp, Or.inl ⟨h, rfl⟩⟩
    | none => exact ⟨by simp, Or.inr rfl⟩
  | cons ct rest ih =>
    unfold acceptDispatch
    cases hf : findHandler ct route with
    | none => exact absurd hf (findHandler_ne_none hw)
    | some o =>
      cases o with
      | some h => exact ⟨by simp, Or.inl ⟨h, rfl⟩⟩
      | none => exact ih

/-! ### Helper lemmas: the Go insertion sort -/

theorem bubbleRev_perm {α : Type} (less : α → α → Bool) (rp : List α) (x : α) :
    (bubbleRev less rp x).Perm (x :: rp) := by
  induction rp with
  | nil => simp [bubbleRev]
  | cons y ys ih =>
    unfold bubbleRev
    cases hl : less x y with
    | true =>
      simp only [if_true]
      exact (ih.cons y).trans (List.Perm.swap x y ys)
    | false =>
      simp only [Bool.false_eq_true, if_false]
      exact List.Perm.refl _

theorem foldl_bubbleRev_perm {α : Type} (less : α → α → Bool) (l : List α) :
    ∀ rp : List α, (l.foldl (bubbleRev less) rp).Perm (l ++ rp) := by
  induction l with
  | nil => intro rp; simp
  | cons x xs ih =>
    intro rp
    simp only [List.foldl_cons]
    have h1 : (xs.foldl (bubbleRev less) (bubbleRev less rp x)).Perm
        (xs ++ bubbleRev less rp x) := ih _
    have h2 : (xs ++ bubbleRev less rp x).Perm (xs ++ x :: rp) :=
      List.Perm.append_left xs (bubbleRev_perm less rp x)
    have h3 : (xs ++ x :: rp).Perm (x :: (xs ++ rp)) := List.perm_middle
    refine (h1.trans (h2.trans h3)).trans ?_
    rw [List.cons_append]

theorem goSortSmall_perm {α : Type} (less : α → α → Bool) (l : List α) :
    (goSortSmall less l).Perm l := by
  unfold goSortSmall
  have h1 := (List.reverse_perm (l.foldl (bubbleRev less) []))
  have h2 := foldl_bubbleRev_perm less l []
  have := h1.trans h2
  simpa using this

theorem byQualityLess_concrete {a b : Clause} (hb1 : b.type ≠ "*") (hb2 : b.subtype ≠ "*") :
    byQualityLess a b = decide (b.quality < a.quality) := by
  unfold byQualityLess
  have h1 : (b.type == "*") = false := by simpa using hb1
  have h2 : (b.subtype == "*") = false := by simpa using hb2
  rw [h1, h2]
  simp

theorem bubbleRev_pairwise_asc {rp : List Clause} {x : Clause}
    (hcon : ∀ y ∈ rp, y.type ≠ "*" ∧ y.subtype ≠ "*")
    (hp : rp.Pairwise (fun a b => a.quality ≤ b.quality)) :
    (bubbleRev byQualityLess rp x).Pairwise (fun a b => a.quality ≤ b.quality) := by
  induction rp with
  | nil => simp [bubbleRev]
  | cons y ys ih =>
    have hy := hcon y (by simp)
    have hbl : byQualityLess x y = decide (y.quality < x.quality) :=
      byQualityLess_concrete hy.1 hy.2
    rw [List.pairwise_cons] at hp
    unfold bubbleRev
    cases hl : byQualityLess x y with
    | true =>
      simp only [if_true]
      rw [List.pairwise_cons]
      have hyx : y.quality ≤ x.quality := by
        rw [hbl] at hl
        exact le_of_lt (of_decide_eq_true hl)
      refine ⟨?_, ih (fun z hz => hcon z (List.mem_cons_of_mem _ hz)) hp.2⟩
      intro z hz
      have hz2 := (bubbleRev_perm byQualityLess ys x).mem_iff.mp hz
      rcases List.mem_cons.mp hz2 with hz3 | hz3
      · rw [hz3]; exact hyx
      · exact hp.1 z hz3
    | false =>
      simp only [Bool.false_eq_true, if_false]
      rw [List.pairwise_cons]
      have hxy : x.quality ≤ y.quality := by
        rw [hbl] at hl
        exact le_of_not_lt (of_decide_eq_false hl)
      refine ⟨?_, List.pairwise_cons.mpr hp⟩
      intro z hz
      rcases List.mem_cons.mp hz with hz3 | hz3
      · rw [hz3]; exact hxy
      · exact le_trans hxy (hp.1 z hz3)

theorem foldl_bubbleRev_pairwise : ∀ (l rp : List Clause),
    (∀ y ∈ l, y.type ≠ "*" ∧ y.subtype ≠ "*") →
    (∀ y ∈ rp, y.type ≠ "*" ∧ y.subtype ≠ "*") →
    rp.Pairwise (fun a b => a.quality ≤ b.quality) →
    (l.foldl (bubbleRev byQualityLess) rp).Pairwise (fun a b => a.quality ≤ b.quality) := by
  intro l
  induction l with
  | nil => intro rp _ _ hp; simpa using hp
  | cons x xs ih =>
    intro rp hl hrp hp
    simp only [List.foldl_cons]
    refine ih _ (fun y hy => hl y (List.mem_cons_of_mem _ hy)) ?_ ?_
    · intro y hy
      have hm := (bubbleRev_perm byQualityLess rp x).mem_iff.mp hy
      rcases List.mem_cons.mp hm with h1 | h1
      · exact h1 ▸ hl x (by simp)
      · exact hrp y h1
    · exact bubbleRev_pairwise_asc hrp hp

theorem goSortSmall_sorted_desc {l : List Clause}
    (hcon : ∀ y ∈ l, y.type ≠ "*" ∧ y.subtype ≠ "*") :
    (goSortSmall byQualityLess l).Pairwise (fun a b => b.quality ≤ a.quality) := by
  unfold goSortSmall
  rw [List.pairwise_reverse]
  exact foldl_bubbleRev_pairwise l [] hcon (by simp) (by simp)

/-! ### Helper lemmas: the ContentType wildcard table -/

theorem mk_data (s : String) : String.mk s.data = s := by cases s; rfl

theorem splitSuffixWild_eq_some_iff {k u : String} :
    splitSuffixWild k = some u ↔ k = u ++ "/*" := by
  unfold splitSuffixWild
  constructor
  · intro h
    rcases hr : k.data.reverse with _ | ⟨a, _ | ⟨b, rest⟩⟩ <;> rw [hr] at h
    · simp at h
    · simp at h
    · cases hc : (a == '*' && b == '/') with
      | false =>
        simp only [hc, Bool.false_eq_true, if_false] at h
        exact absurd h (by simp)
      | true =>
        simp only [hc, if_true, Option.some.injEq] at h
        rw [Bool.and_eq_true, beq_iff_eq, beq_iff_eq] at hc
        obtain ⟨ha, hb⟩ := hc
        subst ha; subst hb
        apply string_eq_of_data
        have hk : k.data = ('*' :: '/' :: rest).reverse := by
          rw [← hr, List.reverse_reverse]
        rw [hk, data_append, ← h, data_mk]
        simp
  · intro h
    subst h
    have hrev : (u ++ "/*").data.reverse = '*' :: '/' :: u.data.reverse := by
      rw [data_append]
      have : ("/*" : String).data = ['/', '*'] := rfl
      rw [this, List.reverse_append]
      rfl
    rw [hrev]
    simp [mk_data]

theorem append_wild_inj {u t : String} (h : u ++ "/*" = t ++ "/*") : u = t := by
  apply string_eq_of_data
  have hd : u.data ++ ("/*" : String).data = t.data ++ ("/*" : String).data := by
    rw [← data_append, ← data_append, h]
  exact List.append_cancel_right hd

theorem mapGet_cons {H : Type} (p : String × H) (rest : List (String × H)) (k : String) :
    mapGet (p :: rest) k = if p.1 == k then some p.2 else mapGet rest k := rfl

theorem possibleTypes_mapGet {H : Type} (route : List (String × H)) (t : String) :
    mapGet (possibleTypes route) t = mapGet route (t ++ "/*") := by
  induction route with
  | nil => rfl
  | cons p rest ih =>
    unfold possibleTypes
    rw [List.filterMap_cons]
    cases hw : splitSuffixWild p.1 with
    | none =>
      have hne : (p.1 == t ++ "/*") = false := by
        rw [beq_eq_false_iff_ne]
        intro he
        rw [he, splitSuffixWild_eq_some_iff.mpr rfl] at hw
        exact Option.noConfusion hw
      simp only [Option.map_none']
      rw [mapGet_cons, hne]
      simp only [Bool.false_eq_true, if_false]
      unfold possibleTypes at ih
      exact ih
    | some u =>
      have hk : p.1 = u ++ "/*" := splitSuffixWild_eq_some_iff.mp hw
      simp only [Option.map_some']
      rw [mapGet_cons, mapGet_cons]
      by_cases ht : u = t
      · subst ht
        rw [show ((u, p.2).1 == u) = true from by simp,
          show (p.1 == u ++ "/*") = true from by simpa using hk]
        simp
      · rw [show ((u, p.2).1 == t) = false from by simpa using ht,
          show (p.1 == t ++ "/*") = false from by
            rw [beq_eq_false_iff_ne, hk]
            intro he
            exact ht (append_wild_inj he)]
        simp only [Bool.false_eq_true, if_false]
        unfold possibleTypes at ih
        exact ih

/-! ### Helper lemmas: characterizing Accept dispatch outcomes -/

theorem mapGet_isSome_iff {H : Type} (l : List (String × H)) (k : String) :
    (∃ v, mapGet l k = some v) ↔ k ∈ l.map Prod.fst := by
  constructor
  · rintro ⟨v, hv⟩
    by_contra hc
    rw [← mapGet_eq_none_iff] at hc
    rw [hv] at hc
    exact Option.noConfusion hc
  · intro hm
    cases h : mapGet l k with
    | some v => exact ⟨v, rfl⟩
    | none => exact absurd ((mapGet_eq_none_iff l k).mp h) (by simpa using hm)

theorem acceptDispatch_handled_iff {H : Type} {route : List (String × H)}
    (hw : ∀ k ∈ route.map Prod.fst, 2 ≤ (goSplit k '/').length) (cl : List Clause) :
    (∃ h, acceptDispatch route cl = .handled h) ↔
      ((∃ c ∈ cl, ∃ p ∈ route, clauseMatches c p.1 = some true) ∨
        "*/*" ∈ route.map Prod.fst) := by
  induction cl with
  | nil =>
    unfold acceptDispatch
    cases hg : mapGet route "*/*" with
    | some h =>
      simp only [Option.some.injEq]
      constructor
      · intro _
        exact Or.inr ((mapGet_isSome_iff route "*/*").mp ⟨h, hg⟩)
      · intro _
        exact ⟨h, rfl⟩
    | none =>
      constructor
      · rintro ⟨h, hh⟩
        exact absurd hh (by simp)
      · rintro (⟨c, hc, _⟩ | hm)
        · simp at hc
        · obtain ⟨v, hv⟩ := (mapGet_isSome_iff route "*/*").mpr hm
          rw [hv] at hg
          exact Option.noConfusion hg
  | cons ct rest ih =>
    unfold acceptDispatch
    cases hf : findHandler ct route with
    | none => exact absurd hf (findHandler_ne_none hw)
    | some o =>
      cases o with
      | some h =>
        constructor
        · intro _
          obtain ⟨k, hk, hmk⟩ := findHandler_eq_some_some hf
          exact Or.inl ⟨ct, by simp, (k, h), hk, hmk⟩
        · intro _
          exact ⟨h, rfl⟩
      | none =>
        rw [ih]
        have hnm : ∀ p ∈ route, clauseMatches ct p.1 = some false :=
          (findHandler_eq_some_none_iff route ct).mp hf
        constructor
        · rintro (⟨c, hc, hp⟩ | hm)
          · exact Or.inl ⟨c, List.mem_cons_of_mem _ hc, hp⟩
          · exact Or.inr hm
        · rintro (⟨c, hc, p, hp, hmp⟩ | hm)
          · rcases List.mem_cons.mp hc with hc1 | hc1
            · rw [hc1] at hmp
              rw [hnm p hp] at hmp
              exact absurd hmp (by simp)
            · exact Or.inl ⟨c, hc1, p, hp, hmp⟩
          · exact Or.inr hm

theorem acceptDispatch_handled_cases {H : Type} {route : List (String × H)} {h : H}
    (hw : ∀ k ∈ route.map Prod.fst, 2 ≤ (goSplit k '/').length) :
    ∀ cl : List Clause, acceptDispatch route cl = .handled h →
    (∃ c ∈ cl, ∃ k, (k, h) ∈ route ∧ clauseMatches c k = some true) ∨
      (mapGet route "*/*" = some h ∧ ∀ c ∈ cl, ∀ p ∈ route, clauseMatches c p.1 = some false) := by
  intro cl
  induction cl with
  | nil =>
    unfold acceptDispatch
    cases hg : mapGet route "*/*" with
    | some h0 =>
      intro hh
      simp only [AcceptResult.handled.injEq] at hh
      exact Or.inr ⟨by rw [hh], by simp⟩
    | none =>
      intro hh
      exact absurd hh (by simp)
  | cons ct rest ih =>
    unfold acceptDispatch
    cases hf : findHandler ct route with
    | none => exact fun hh => absurd hf (findHandler_ne_none hw)
    | some o =>
      cases o with
      | some h0 =>
        intro hh
        simp only [AcceptResult.handled.injEq] at hh
        obtain ⟨k, hk, hmk⟩ := findHandler_eq_some_some hf
        exact Or.inl ⟨ct, by simp, k, hh ▸ hk, hmk⟩
      | none =>
        intro hh
        have hnm : ∀ p ∈ route, clauseMatches ct p.1 = some false :=
          (findHandler_eq_some_none_iff route ct).mp hf
        rcases ih hh with ⟨c, hc, hex⟩ | ⟨hg, hall⟩
        · exact Or.inl ⟨c, List.mem_cons_of_mem _ hc, hex⟩
        · refine Or.inr ⟨hg, ?_⟩
          intro c hc p hp
          rcases List.mem_cons.mp hc with hc1 | hc1
          · rw [hc1]; exact hnm p hp
          · exact hall c hc1 p hp

theorem acceptDispatch_sorted_max {H : Type} {route : List (String × H)} {h : H}
    (hw : ∀ k ∈ route.map Prod.fst, 2 ≤ (goSplit k '/').length) :
    ∀ cl : List Clause, cl.Pairwise (fun a b => b.quality ≤ a.quality) →
    acceptDispatch route cl = .handled h →
    (∃ c ∈ cl, (∃ k, (k, h) ∈ route ∧ clauseMatches c k = some true) ∧
      ∀ c2 ∈ cl, (∃ p ∈ route, clauseMatches c2 p.1 = some true) → c2.quality ≤ c.quality) ∨
      (mapGet route "*/*" = some h ∧ ∀ c ∈ cl, ∀ p ∈ route, clauseMatches c p.1 = some false) := by
  intro cl
  induction cl with
  | nil =>
    unfold acceptDispatch
    cases hg : mapGet route "*/*" with
    | some h0 =>
      intro _ hh
      simp only [AcceptResult.handled.injEq] at hh
      exact Or.inr ⟨by rw [hh], by simp⟩
    | none =>
      intro _ hh
      exact absurd hh (by simp)
  | cons ct rest ih =>
    intro hp
    rw [List.pairwise_cons] at hp
    unfold acceptDispatch
    cases hf : findHandler ct route with
    | none => exact fun hh => absurd hf (findHandler_ne_none hw)
    | some o =>
      cases o with
      | some h0 =>
        intro hh
        simp only [AcceptResult.handled.injEq] at hh
        obtain ⟨k, hk, hmk⟩ := findHandler_eq_some_some hf
        refine Or.inl ⟨ct, by simp, ⟨k, hh ▸ hk, hmk⟩, ?_⟩
        intro c2 hc2 _
        rcases List.mem_cons.mp hc2 with hc1 | hc1
        · rw [hc1]
        · exact hp.1 c2 hc1
      | none =>
        intro hh
        have hnm : ∀ p ∈ route, clauseMatches ct p.1 = some false :=
          (findHandler_eq_some_none_iff route ct).mp hf
        rcases ih hp.2 hh with ⟨c, hc, hex, hmax⟩ | ⟨hg, hall⟩
        · refine Or.inl ⟨c, List.mem_cons_of_mem _ hc, hex, ?_⟩
          intro c2 hc2 hm2
          rcases List.mem_cons.mp hc2 with hc1 | hc1
          · obtain ⟨p, hp2, hmp⟩ := hm2
            rw [hc1] at hmp
            rw [hnm p hp2] at hmp
            exact absurd hmp (by simp)
          · exact hmax c2 hc1 hm2
        · refine Or.inr ⟨hg, ?_⟩
          intro c hc p hp2
          rcases List.mem_cons.mp hc with hc1 | hc1
          · rw [hc1]; exact hnm p hp2
          · exact hall c hc1 p hp2

theorem acceptDispatch_status_iff {H : Type} {route : List (String × H)}
    (hw : ∀ k ∈ route.map Prod.fst, 2 ≤ (goSplit k '/').length) (cl : List Clause) :
    acceptDispatch route cl = .status statusNotAcceptable ↔
      ¬ ∃ h, acceptDispatch route cl = .handled h := by
  rcases (acceptDispatch_ne_crash hw cl).2 with ⟨h, hh⟩ | hs
  · rw [hh]
    constructor
    · intro hc
      exact absurd hc (by simp)
    · intro hc
      exact absurd ⟨h, rfl⟩ hc
  · rw [hs]
    constructor
    · rintro _ ⟨h, hh⟩
      exact absurd hh (by simp)
    · intro _
      rfl

theorem concat_slash_data (t s : String) : (t ++ "/" ++ s).data = t.data ++ '/' :: s.data := by
  rw [data_append, data_append]
  have : ("/" : String).data = ['/'] := rfl
  rw [this, List.append_assoc]
  rfl

theorem goSplit_pair {k t s : String} (hk : goSplit k '/' = [t, s]) :
    k = t ++ "/" ++ s ∧ '/' ∉ t.data ∧ '/' ∉ s.data := by
  unfold goSplit at hk
  rcases hL : splitOnChar '/' k.data with _ | ⟨A, rest1⟩
  · rw [hL] at hk; simp at hk
  rcases rest1 with _ | ⟨B, rest⟩ <;> rw [hL] at hk
  · simp at hk
  · simp only [List.map_cons, List.cons.injEq] at hk
    obtain ⟨hA, hB, hrest⟩ := hk
    have hrest2 : rest = [] := by
      cases rest with
      | nil => rfl
      | cons x xs => simp at hrest
    subst hrest2
    obtain ⟨hjoin, hnA, hnB⟩ := splitOnChar_pair hL
    have hAt : A = t.data := by rw [← hA, data_mk]
    have hBs : B = s.data := by rw [← hB, data_mk]
    subst hAt; subst hBs
    refine ⟨?_, hnA, hnB⟩
    apply string_eq_of_data
    rw [concat_slash_data, hjoin]

theorem clauseMatches_concrete_iff {ct : Clause} {k t s : String}
    (h1 : ct.type ≠ "*") (h2 : ct.subtype ≠ "*") (hk : goSplit k '/' = [t, s]) :
    (clauseMatches ct k = some true ↔ k = ct.type ++ "/" ++ ct.subtype) := by
  obtain ⟨hcat, hnt, hns⟩ := goSplit_pair hk
  unfold clauseMatches
  rw [hk]
  simp only [List.headD_cons, List.get?_cons_succ, List.get?_cons_zero]
  have hb2 : (ct.subtype == "*") = false := by simpa using h2
  have hb1 : (ct.type == "*") = false := by simpa using h1
  cases hct : (ct.type == t) with
  | true =>
    rw [beq_iff_eq] at hct
    simp only [if_true, hb2, hb1, Bool.false_and, Bool.or_false, Option.some.injEq]
    constructor
    · intro hsub
      rw [beq_iff_eq] at hsub
      rw [hcat, hct, hsub]
    · intro hke
      rw [hcat] at hke
      have hdata : t.data ++ '/' :: s.data = ct.type.data ++ '/' :: ct.subtype.data := by
        rw [← concat_slash_data, ← concat_slash_data, hke]
      obtain ⟨_, he2⟩ := sep_append_inj '/' t.data ct.type.data s.data ct.subtype.data hnt hns hdata
      rw [beq_iff_eq]
      exact (string_eq_of_data he2).symm
  | false =>
    simp only [Bool.false_eq_true, if_false, hb1, Bool.false_and, Option.some.injEq]
    constructor
    · intro hc
      exact absurd hc (by simp)
    · intro hke
      exfalso
      rw [hcat] at hke
      have hdata : t.data ++ '/' :: s.data = ct.type.data ++ '/' :: ct.subtype.data := by
        rw [← concat_slash_data, ← concat_slash_data, hke]
      obtain ⟨he1, _⟩ := sep_append_inj '/' t.data ct.type.data s.data ct.subtype.data hnt hns hdata
      rw [beq_eq_false_iff_ne] at hct
      exact hct (string_eq_of_data he1).symm

/-! ### Helper lemmas: sorting strings -/

theorem goSortSmall_pairwise {α : Type} (less : α → α → Bool)
    (hasym : ∀ a b, less a b = true → less b a = false)
    (htrans : ∀ a b c, less a b = false → less b c = false → less a c = false) (l : List α) :
    (goSortSmall less l).Pairwise (fun a b => less b a = false) := by
  have hbub : ∀ (rp : List α) (x : α), rp.Pairwise (fun a b => less a b = false) →
      (bubbleRev less rp x).Pairwise (fun a b => less a b = false) := by
    intro rp
    induction rp with
    | nil => intro x _; simp [bubbleRev]
    | cons y ys ih =>
      intro x hp
      rw [List.pairwise_cons] at hp
      unfold bubbleRev
      cases hl : less x y with
      | true =>
        simp only [if_true]
        rw [List.pairwise_cons]
        refine ⟨?_, ih x hp.2⟩
        intro z hz
        rcases List.mem_cons.mp ((bubbleRev_perm less ys x).mem_iff.mp hz) with hz3 | hz3
        · rw [hz3]; exact hasym x y hl
        · exact hp.1 z hz3
      | false =>
        simp only [Bool.false_eq_true, if_false]
        rw [List.pairwise_cons]
        refine ⟨?_, List.pairwise_cons.mpr hp⟩
        intro z hz
        rcases List.mem_cons.mp hz with hz3 | hz3
        · rw [hz3]; exact hl
        · exact htrans x y z hl (hp.1 z hz3)
  have hfold : ∀ (l2 rp : List α), rp.Pairwise (fun a b => less a b = false) →
      (l2.foldl (bubbleRev less) rp).Pairwise (fun a b => less a b = false) := by
    intro l2
    induction l2 with
    | nil => intro rp hp; simpa using hp
    | cons x xs ih =>
      intro rp hp
      simp only [List.foldl_cons]
      exact ih _ (hbub rp x hp)
  unfold goSortSmall
  rw [List.pairwise_reverse]
  exact hfold l [] (by simp)

theorem listLtChars_asymm : ∀ a b : List Char, listLtChars a b = true → listLtChars b a = false
  | [], [], h => by simp [listLtChars] at h
  | [], _ :: _, _ => by simp [listLtChars]
  | _ :: _, [], h => by simp [listLtChars] at h
  | a :: as, b :: bs, h => by
    unfold listLtChars at h ⊢
    by_cases hab : a < b
    · rw [if_neg (lt_asymm hab), if_pos hab]
    · rw [if_neg hab] at h
      by_cases hba : b < a
      · rw [if_pos hba] at h
        exact absurd h (by simp)
      · rw [if_neg hba] at h
        rw [if_neg hba, if_neg hab]
        exact listLtChars_asymm as bs h

theorem listLtChars_nil_right : ∀ x : List Char, listLtChars x [] = false
  | [] => rfl
  | _ :: _ => rfl

theorem listLtChars_false_trans : ∀ a b c : List Char, listLtChars a b = false →
    listLtChars b c = false → listLtChars a c = false
  | _, _, [], _, _ => listLtChars_nil_right _
  | [], b, c :: cs, h1, h2 => by
    cases b with
    | nil => exact h2
    | cons b0 bs => simp [listLtChars] at h1
  | a :: as, b, c :: cs, h1, h2 => by
    cases b with
    | nil => simp [listLtChars] at h2
    | cons b0 bs =>
      unfold listLtChars at h1 h2 ⊢
      by_cases hab : a < b0
      · rw [if_pos hab] at h1
        exact absurd h1 (by simp)
      · rw [if_neg hab] at h1
        by_cases hbc : b0 < c
        · rw [if_pos hbc] at h2
          exact absurd h2 (by simp)
        · rw [if_neg hbc] at h2
          have hca : c ≤ a := le_trans (le_of_not_lt hbc) (le_of_not_lt hab)
          rw [if_neg (not_lt.mpr hca)]
          by_cases hca2 : c < a
          · rw [if_pos hca2]
          · rw [if_neg hca2]
            have hac : a = c := le_antisymm (le_of_not_lt hca2) hca
            have hb0 : b0 = a := le_antisymm (le_of_not_lt hab) (hac ▸ le_of_not_lt hbc)
            rw [hb0] at h1 h2
            rw [if_neg (lt_irrefl a)] at h1
            rw [if_neg hca2] at h2
            exact listLtChars_false_trans as bs cs h1 h2

theorem listLtChars_antisymm : ∀ a b : List Char, listLtChars a b = false →
    listLtChars b a = false → a = b
  | [], [], _, _ => rfl
  | [], _ :: _, h1, _ => by simp [listLtChars] at h1
  | _ :: _, [], _, h2 => by simp [listLtChars] at h2
  | a :: as, b :: bs, h1, h2 => by
    unfold listLtChars at h1 h2
    by_cases hab : a < b
    · rw [if_pos hab] at h1
      exact absurd h1 (by simp)
    · by_cases hba : b < a
      · rw [if_pos hba] at h2
        exact absurd h2 (by simp)
      · rw [if_neg hab, if_neg hba] at h1
        rw [if_neg hba, if_neg hab] at h2
        have he : a = b := le_antisymm (le_of_not_lt hba) (le_of_not_lt hab)
        rw [he, listLtChars_antisymm as bs h1 h2]

theorem stringLtGo_asymm (a b : String) (h : stringLtGo a b = true) : stringLtGo b a = false :=
  listLtChars_asymm a.data b.data h

theorem stringLtGo_false_trans (a b c : String) (h1 : stringLtGo a b = false)
    (h2 : stringLtGo b c = false) : stringLtGo a c = false :=
  listLtChars_false_trans a.data b.data c.data h1 h2

theorem stringLtGo_antisymm (a b : String) (h1 : stringLtGo a b = false)
    (h2 : stringLtGo b a = false) : a = b :=
  string_eq_of_data (listLtChars_antisymm a.data b.data h1 h2)

theorem sortStrings_pairwise (l : List String) :
    (sortStrings l).Pairwise (fun a b => stringLtGo b a = false) :=
  goSortSmall_pairwise stringLtGo stringLtGo_asymm stringLtGo_false_trans l

theorem sortStrings_perm (l : List String) : (sortStrings l).Perm l :=
  goSortSmall_perm stringLtGo l

theorem sortStrings_perm_eq {a b : List String} (h : a.Perm b) :
    sortStrings a = sortStrings b := by
  haveI : IsAntisymm String (fun a b => stringLtGo b a = false) :=
    ⟨fun x y h1 h2 => stringLtGo_antisymm x y h2 h1⟩
  exact List.eq_of_perm_of_sorted
    ((sortStrings_perm a).trans (h.trans (sortStrings_perm b).symm))
    (sortStrings_pairwise a) (sortStrings_pairwise b)

/-! ### The claims -/

/-- C2: for every ContentType route table and request `Content-Type`
header, dispatch follows exactly the specified priority order — exact
match on the normalized `type/subtype`, else a `type/*` key whose prefix
equals the request's type, else `*/*`, else a written `415` — stated as
equality with `specContentTypeResolve`, the resolution cascade transcribed
from the specification. -/
theorem contentType_priority_refines_spec {H : Type} (route : List (String × H)) (r : Request) :
    contentTypeServeHTTP route r = specContentTypeResolve route r.contentTypeHeader := by
  simp only [contentTypeServeHTTP, specContentTypeResolve]
  rw [possibleTypes_mapGet]

/-- C3 (counterexample): with an `"OPTIONS"` handler registered, a missed
dispatch writes `"GET,OPTIONS,OPTIONS"` — the registered keys with
`"OPTIONS"` appended again — which is not the duplicate-free set union
`"GET,OPTIONS"` the claim demands. -/
theorem method_options_duplicate_counterexample :
    methodServeHTTP [("GET", (1 : Nat)), ("OPTIONS", 2)] ⟨"POST", "", "", ""⟩ =
      .noMatch "GET,OPTIONS,OPTIONS" (some statusMethodNotAllowed) ∧
    ("GET,OPTIONS,OPTIONS" : String) ≠ "GET,OPTIONS" := by
  constructor
  · decide
  · decide

/-- C3 (amended): when no handler is registered under the method and no
`"OPTIONS"` key is registered, the header named `Accept` is set to the
comma-join of a lexicographically sorted, duplicate-free list whose
members are exactly the registered keys together with `"OPTIONS"` (the
claim's set union); when `"OPTIONS"` is itself a registered key the code
appends it a second time, so the header then contains `OPTIONS` twice
(see the counterexample). -/
theorem method_no_match_header {H : Type} (route : List (String × H)) (r : Request)
    (hn : (route.map Prod.fst).Nodup)
    (hop : "OPTIONS" ∉ route.map Prod.fst)
    (hmiss : mapGet route (goToUpper r.method) = none) :
    ∃ l : List String,
      methodServeHTTP route r = .noMatch (String.intercalate "," l)
        (if goToUpper r.method != "OPTIONS" then some statusMethodNotAllowed else none) ∧
      l.Pairwise (fun a b => stringLtGo b a = false) ∧ l.Nodup ∧
      ∀ k : String, k ∈ l ↔ (k ∈ route.map Prod.fst ∨ k = "OPTIONS") := by
  refine ⟨sortStrings (route.map Prod.fst ++ ["OPTIONS"]), ?_, sortStrings_pairwise _, ?_, ?_⟩
  · simp only [methodServeHTTP]
    rw [hmiss]
  · refine (sortStrings_perm _).nodup_iff.mpr ?_
    rw [List.nodup_append]
    refine ⟨hn, List.nodup_singleton _, ?_⟩
    intro a ha hb
    rw [List.mem_singleton] at hb
    rw [hb] at ha
    exact hop ha
  · intro k
    rw [(sortStrings_perm _).mem_iff, List.mem_append, List.mem_singleton]

/-- C3 (witness): a `POST` against a `{GET, PUT}` table gets status 405
and the header value `GET,OPTIONS,PUT`, i.e. the sorted union with
`OPTIONS`. -/
theorem method_no_match_header_witness :
    ∃ l : List String,
      methodServeHTTP [("GET", (1 : Nat)), ("PUT", 2)] ⟨"POST", "", "", ""⟩ =
        .noMatch (String.intercalate "," l)
          (if goToUpper "POST" != "OPTIONS" then some statusMethodNotAllowed else none) ∧
      l.Pairwise (fun a b => stringLtGo b a = false) ∧ l.Nodup ∧
      ∀ k : String, k ∈ l ↔
        (k ∈ ([("GET", (1 : Nat)), ("PUT", 2)].map Prod.fst) ∨ k = "OPTIONS") :=
  method_no_match_header [("GET", (1 : Nat)), ("PUT", 2)] ⟨"POST", "", "", ""⟩
    (by decide) (by decide) (by decide)

/-- C4 (counterexample): the segment `application/json;q=2.0` parses
successfully into a clause whose quality is `2.0`, outside the claimed
interval `[0.0, 1.0]`: the `q` parameter is used as parsed, without any
range check. -/
theorem quality_range_counterexample :
    parseContentType "application/json;q=2.0" = some ⟨"application", "json", 2⟩ ∧
    ¬ ((2 : ℚ) ≤ 1) := by
  constructor
  · decide
  · decide

/-- C4 (amended): the quality of a parsed `AcceptClause` is exactly `1.0`
whenever the segment carries no `q` parameter; when a `q` parameter is
present its parsed value is used without range restriction, so the
quality can fall outside `[0.0, 1.0]` (see the counterexample). -/
theorem quality_default_one (s mt : String) (ps : List (String × String)) (c : Clause)
    (hparse : parseMediaType s = some (mt, ps))
    (hq : ps.lookup "q" = none)
    (hc : parseContentType s = some c) : c.quality = 1 := by
  unfold parseContentType at hc
  rw [hparse] at hc
  simp only [hq] at hc
  split at hc
  · injection hc with h
    rw [← h]
  · exact absurd hc (by simp)

/-- C4 (witness): `text/html` carries no `q` parameter and parses to
quality `1`. -/
theorem quality_default_one_witness : (⟨"text", "html", 1⟩ : Clause).quality = 1 :=
  quality_default_one "text/html" "text/html" [] ⟨"text", "html", 1⟩
    (by decide) (by decide) (by decide)

/-- C8: a request whose `Content-Type` header parses to media type `mt`
(parameters such as `boundary=...` stripped by `mime.ParseMediaType`) is
routed to the handler registered under the bare `mt`. -/
theorem contentType_params_stripped {H : Type} (route : List (String × H)) (r : Request)
    (mt : String) (ps : List (String × String)) (h : H)
    (hparse : parseMediaType r.contentTypeHeader = some (mt, ps))
    (hget : mapGet route mt = some h) :
    contentTypeServeHTTP route r = .handled h := by
  simp only [contentTypeServeHTTP, resolveMediaType, hparse]
  rw [hget]

/-- C8 (witness): `multipart/form-data; boundary=abcdefgh` reaches the
handler registered under the bare `multipart/form-data`. -/
theorem contentType_params_stripped_witness :
    contentTypeServeHTTP [("application/xml", (1 : Nat)), ("multipart/form-data", 2)]
      ⟨"GET", "multipart/form-data; boundary=abcdefgh", "", ""⟩ = .handled 2 :=
  contentType_params_stripped _ _ "multipart/form-data" [("boundary", "abcdefgh")] 2
    (by decide) (by decide)

/-- C10: the outcome of Method dispatch — handler selection, status, and
the advertised-methods header — depends only on the request's method
string and the route table; two requests with the same method but
different headers or bodies produce identical results. -/
theorem method_depends_only_on_method {H : Type} (route : List (String × H)) (r1 r2 : Request)
    (h : r1.method = r2.method) : methodServeHTTP route r1 = methodServeHTTP route r2 := by
  simp only [methodServeHTTP, h]

/-- C10 (witness): two `GET` requests with different headers and bodies
dispatch identically. -/
theorem method_depends_only_on_method_witness :
    methodServeHTTP [("GET", (5 : Nat))] ⟨"GET", "text/html", "text/plain", "abc"⟩ =
      methodServeHTTP [("GET", (5 : Nat))] ⟨"GET", "application/json", "*/*", "xyz"⟩ :=
  method_depends_only_on_method [("GET", (5 : Nat))] _ _ rfl

/-- C6: dispatch of each router is total.  Method dispatch either runs a
handler or reports no-match (writing `405` unless the method is
`OPTIONS`); ContentType dispatch either runs a handler or writes `415`;
Accept dispatch, over a table whose keys are media-type patterns (hence
contain `/`), never reaches the `rsplit[1]` index panic and either runs a
handler or writes `406`. -/
theorem routers_total {H : Type} (rm rc ra : List (String × H)) (r : Request)
    (hw : ∀ k ∈ ra.map Prod.fst, 2 ≤ (goSplit k '/').length) :
    ((∃ h, methodServeHTTP rm r = .handled h) ∨
      ∃ hdr, methodServeHTTP rm r = .noMatch hdr none ∨
        methodServeHTTP rm r = .noMatch hdr (some statusMethodNotAllowed)) ∧
    ((∃ h, contentTypeServeHTTP rc r = .handled h) ∨
      contentTypeServeHTTP rc r = .status statusUnsupportedMediaType) ∧
    (acceptServeHTTP ra r ≠ .crash ∧
      ((∃ h, acceptServeHTTP ra r = .handled h) ∨
        acceptServeHTTP ra r = .status statusNotAcceptable)) := by
  refine ⟨?_, ?_, ?_⟩
  · simp only [methodServeHTTP]
    cases mapGet rm (goToUpper r.method) with
    | some h => exact Or.inl ⟨h, rfl⟩
    | none =>
      refine Or.inr ⟨String.intercalate "," (sortStrings (rm.map Prod.fst ++ ["OPTIONS"])), ?_⟩
      cases hb : (goToUpper r.method != "OPTIONS") with
      | true => right; simp
      | false => left; simp
  · simp only [contentTypeServeHTTP]
    cases mapGet rc (resolveMediaType r.contentTypeHeader) with
    | some h => exact Or.inl ⟨h, rfl⟩
    | none =>
      cases mapGet (possibleTypes rc) (cutBefore (resolveMediaType r.contentTypeHeader) '/') with
      | some h => exact Or.inl ⟨h, rfl⟩
      | none =>
        cases mapGet rc "*/*" with
        | some h => exact Or.inl ⟨h, rfl⟩
        | none => exact Or.inr rfl
  · exact acceptDispatch_ne_crash hw _

/-- C6 (witness): concrete tables and a concrete request, all three
routers produce a handler or a no-match status. -/
theorem routers_total_witness :
    ((∃ h, methodServeHTTP [("GET", (1 : Nat))] ⟨"GET", "x", "y", "z"⟩ = .handled h) ∨
      ∃ hdr, methodServeHTTP [("GET", (1 : Nat))] ⟨"GET", "x", "y", "z"⟩ = .noMatch hdr none ∨
        methodServeHTTP [("GET", (1 : Nat))] ⟨"GET", "x", "y", "z"⟩ =
          .noMatch hdr (some statusMethodNotAllowed)) ∧
    ((∃ h, contentTypeServeHTTP [("a/b", (2 : Nat))] ⟨"GET", "x", "y", "z"⟩ = .handled h) ∨
      contentTypeServeHTTP [("a/b", (2 : Nat))] ⟨"GET", "x", "y", "z"⟩ =
        .status statusUnsupportedMediaType) ∧
    (acceptServeHTTP [("c/d", (3 : Nat))] ⟨"GET", "x", "y", "z"⟩ ≠ .crash ∧
      ((∃ h, acceptServeHTTP [("c/d", (3 : Nat))] ⟨"GET", "x", "y", "z"⟩ = .handled h) ∨
        acceptServeHTTP [("c/d", (3 : Nat))] ⟨"GET", "x", "y", "z"⟩ =
          .status statusNotAcceptable)) :=
  routers_total [("GET", (1 : Nat))] [("a/b", (2 : Nat))] [("c/d", (3 : Nat))]
    ⟨"GET", "x", "y", "z"⟩ (by decide)

/-- C9: a clause with concrete type and subtype matches a registered
media-type-pattern key (exactly two `/`-separated parts) in the inner loop
precisely when the key string equals `type/subtype`; consequently, over a
table of pattern keys and a list of concrete clauses, a handler is
reached either through a key equal to some clause's `type/subtype`, or
through the after-loop `*/*` fallback once no clause matched any key. -/
theorem accept_concrete_exact_match {H : Type} :
    (∀ (ct : Clause) (k t s : String), ct.type ≠ "*" → ct.subtype ≠ "*" →
      goSplit k '/' = [t, s] →
      (clauseMatches ct k = some true ↔ k = ct.type ++ "/" ++ ct.subtype)) ∧
    (∀ (route : List (String × H)) (cl : List Clause) (h : H),
      (∀ k ∈ route.map Prod.fst, ∃ t s, goSplit k '/' = [t, s]) →
      (∀ c ∈ cl, c.type ≠ "*" ∧ c.subtype ≠ "*") →
      acceptDispatch route cl = .handled h →
      (∃ c ∈ cl, (c.type ++ "/" ++ c.subtype, h) ∈ route) ∨
        (mapGet route "*/*" = some h ∧
          ∀ c ∈ cl, ∀ p ∈ route, clauseMatches c p.1 = some false)) := by
  constructor
  · intro ct k t s h1 h2 hk
    exact clauseMatches_concrete_iff h1 h2 hk
  · intro route cl h hwf hconc hres
    have hw : ∀ k ∈ route.map Prod.fst, 2 ≤ (goSplit k '/').length := by
      intro k hk
      obtain ⟨t, s, hts⟩ := hwf k hk
      rw [hts]
      simp
    rcases acceptDispatch_handled_cases hw cl hres with ⟨c, hc, k, hkmem, hmk⟩ | hright
    · obtain ⟨t, s, hts⟩ := hwf k (List.mem_map.mpr ⟨(k, h), hkmem, rfl⟩)
      have hcc := hconc c hc
      have hke := (clauseMatches_concrete_iff hcc.1 hcc.2 hts).mp hmk
      exact Or.inl ⟨c, hc, hke ▸ hkmem⟩
    · exact Or.inr hright

/-- C9 (witness): the concrete clause `application/json` matches the key
`application/json` exactly, and over a one-entry table the dispatch of
that single clause selects that entry. -/
theorem accept_concrete_exact_match_witness :
    (clauseMatches ⟨"application", "json", 1⟩ "application/json" = some true ↔
      ("application/json" : String) = "application" ++ "/" ++ "json") ∧
    ((∃ c ∈ [(⟨"application", "json", (1 : ℚ)⟩ : Clause)],
        (c.type ++ "/" ++ c.subtype, (5 : Nat)) ∈ [("application/json", (5 : Nat))]) ∨
      (mapGet [("application/json", (5 : Nat))] "*/*" = some 5 ∧
        ∀ c ∈ [(⟨"application", "json", (1 : ℚ)⟩ : Clause)],
          ∀ p ∈ [("application/json", (5 : Nat))], clauseMatches c p.1 = some false)) :=
  ⟨(accept_concrete_exact_match (H := Nat)).1 ⟨"application", "json", 1⟩ "application/json"
      "application" "json" (by decide) (by decide) (by decide),
    (accept_concrete_exact_match (H := Nat)).2 [("application/json", 5)]
      [⟨"application", "json", 1⟩] 5
      (by
        intro k hk
        simp only [List.map_cons, List.map_nil, List.mem_singleton] at hk
        subst hk
        exact ⟨"application", "json", by decide⟩)
      (by decide) (by decide)⟩

/-- C5 (counterexample): in the header `audio/*;q=0.9,text/css;q=0.4` the
wildcard-subtype clause has the strictly higher quality, yet `byQuality`
sorting places it below the lower-quality concrete clause (the comparator
also ranks concrete subtypes above wildcards, so it is not an order), and
dispatch selects the concrete clause's entry instead of the wildcard
match. -/
theorem wildcard_order_counterexample :
    goSortSmall byQualityLess (parseContentTypeList "audio/*;q=0.9,text/css;q=0.4") =
      [⟨"text", "css", mkRat 2 5⟩, ⟨"audio", "*", mkRat 9 10⟩] ∧
    (mkRat 2 5 < mkRat 9 10) ∧
    acceptServeHTTP [("audio/mp3", (1 : Nat)), ("text/css", 7)]
      ⟨"GET", "", "audio/*;q=0.9,text/css;q=0.4", ""⟩ = .handled 7 ∧
    clauseMatches ⟨"audio", "*", mkRat 9 10⟩ "audio/mp3" = some true ∧
    mapGet [("audio/mp3", (1 : Nat)), ("text/css", 7)] "audio/mp3" = some 1 ∧
    (7 : Nat) ≠ 1 := by decide

/-- C5 (amended): the `byQuality` comparison does rank a wildcard-subtype
clause with strictly higher quality above every lower-quality concrete
clause (`Less` returns true), and in the specification's example header
`application/xml;q=0.5,application/json;q=0.8,image/*;q=1.0` the
wildcard's match wins; but `Less` also ranks any concrete-subtype clause
above any wildcard-subtype one, so the comparator is not an order and for
other headers the lower-quality concrete match wins (see the
counterexample). -/
theorem wildcard_quality_less :
    (∀ w c : Clause, w.subtype = "*" → c.type ≠ "*" → c.subtype ≠ "*" →
      c.quality < w.quality → byQualityLess w c = true) ∧
    acceptServeHTTP [("application/xml", (1 : Nat)), ("application/json", 2), ("image/jpeg", 3)]
      ⟨"GET", "", "application/xml;q=0.5,application/json;q=0.8,image/*;q=1.0", ""⟩ =
      .handled 3 := by
  constructor
  · intro w c _ hc1 hc2 hq
    rw [byQualityLess_concrete hc1 hc2]
    simpa using hq
  · decide

/-- C5 (witness): `image/*` at quality 1 is ranked above `text/html` at
quality one half. -/
theorem wildcard_quality_less_witness :
    byQualityLess ⟨"image", "*", 1⟩ ⟨"text", "html", mkRat 1 2⟩ = true :=
  wildcard_quality_less.1 ⟨"image", "*", 1⟩ ⟨"text", "html", mkRat 1 2⟩ rfl
    (by decide) (by decide) (by decide)

/-- C1 (counterexample): for the header `image/*;q=0.9,text/html;q=0.5`
the highest-quality clause is `image/*` at `0.9`, which matches the
registered entry `image/jpeg`; but `byQuality` (whose subtype-specificity
disjunct also ranks `text/html` above `image/*` regardless of quality)
sorts the lower-quality concrete clause first, and its entry's handler is
the one invoked. -/
theorem accept_quality_counterexample :
    parseContentTypeList "image/*;q=0.9,text/html;q=0.5" =
      [⟨"image", "*", mkRat 9 10⟩, ⟨"text", "html", mkRat 1 2⟩] ∧
    (mkRat 1 2 < mkRat 9 10) ∧
    clauseMatches ⟨"image", "*", mkRat 9 10⟩ "image/jpeg" = some true ∧
    mapGet [("image/jpeg", (1 : Nat)), ("text/html", 2)] "image/jpeg" = some 1 ∧
    acceptServeHTTP [("image/jpeg", (1 : Nat)), ("text/html", 2)]
      ⟨"GET", "", "image/*;q=0.9,text/html;q=0.5", ""⟩ = .handled 2 ∧
    (2 : Nat) ≠ 1 := by decide

/-- C1 (amended): when every clause of the Accept header has concrete
type and subtype (no wildcards, so the `byQuality` comparison degenerates
to the quality comparison and is consistent) and the table's keys are
media-type patterns, an invoked handler is matched by a clause of maximal
quality among all clauses that match any registered entry — in
particular, the later-in-header `application/json;q=0.8` beats
`application/xml;q=0.5` (see the witness); otherwise the handler came
from the `*/*` fallback with no clause matching at all. -/
theorem accept_concrete_highest_quality {H : Type} (route : List (String × H)) (r : Request)
    (h : H)
    (hw : ∀ k ∈ route.map Prod.fst, 2 ≤ (goSplit k '/').length)
    (hconc : ∀ c ∈ parseContentTypeList r.acceptHeader, c.type ≠ "*" ∧ c.subtype ≠ "*")
    (hres : acceptServeHTTP route r = .handled h) :
    (∃ c ∈ parseContentTypeList r.acceptHeader,
        (∃ k, (k, h) ∈ route ∧ clauseMatches c k = some true) ∧
        ∀ c2 ∈ parseContentTypeList r.acceptHeader,
          (∃ p ∈ route, clauseMatches c2 p.1 = some true) → c2.quality ≤ c.quality) ∨
      (mapGet route "*/*" = some h ∧
        ∀ c ∈ parseContentTypeList r.acceptHeader, ∀ p ∈ route,
          clauseMatches c p.1 = some false) := by
  unfold acceptServeHTTP at hres
  have hperm := goSortSmall_perm byQualityLess (parseContentTypeList r.acceptHeader)
  have hsorted := goSortSmall_sorted_desc hconc
  rcases acceptDispatch_sorted_max hw _ hsorted hres with ⟨c, hc, hex, hmax⟩ | ⟨hg, hall⟩
  · refine Or.inl ⟨c, hperm.mem_iff.mp hc, hex, ?_⟩
    intro c2 hc2 hm2
    exact hmax c2 (hperm.mem_iff.mpr hc2) hm2
  · refine Or.inr ⟨hg, ?_⟩
    intro c hc p hp
    exact hall c (hperm.mem_iff.mpr hc) p hp

/-- C1 (witness): the specification's example — for
`application/xml;q=0.5,application/json;q=0.8` against entries for both
types, the invoked handler (`application/json`'s, number 2) is matched by
a maximal-quality matching clause. -/
theorem accept_concrete_highest_quality_witness :
    (∃ c ∈ parseContentTypeList "application/xml;q=0.5,application/json;q=0.8",
        (∃ k, (k, (2 : Nat)) ∈ [("application/xml", (1 : Nat)), ("application/json", 2)] ∧
          clauseMatches c k = some true) ∧
        ∀ c2 ∈ parseContentTypeList "application/xml;q=0.5,application/json;q=0.8",
          (∃ p ∈ [("application/xml", (1 : Nat)), ("application/json", 2)],
            clauseMatches c2 p.1 = some true) → c2.quality ≤ c.quality) ∨
      (mapGet [("application/xml", (1 : Nat)), ("application/json", 2)] "*/*" = some 2 ∧
        ∀ c ∈ parseContentTypeList "application/xml;q=0.5,application/json;q=0.8",
          ∀ p ∈ [("application/xml", (1 : Nat)), ("application/json", 2)],
            clauseMatches c p.1 = some false) :=
  accept_concrete_highest_quality [("application/xml", (1 : Nat)), ("application/json", 2)]
    ⟨"GET", "", "application/xml;q=0.5,application/json;q=0.8", ""⟩ 2
    (by decide) (by decide) (by decide)

/-- C7 (counterexample): the two association lists are permutations of
each other, i.e. the same route table under two map iteration orders; for
the header `image/*` one order selects the `image/jpeg` handler and the
other the `image/png` handler, so with Go's unspecified (randomized)
iteration order two dispatches of the same request against the same table
need not select the same handler. -/
theorem accept_iteration_order_counterexample :
    [("image/jpeg", (1 : Nat)), ("image/png", 2)].Perm
      [("image/png", (2 : Nat)), ("image/jpeg", 1)] ∧
    acceptServeHTTP [("image/jpeg", (1 : Nat)), ("image/png", 2)]
      ⟨"GET", "", "image/*", ""⟩ = .handled 1 ∧
    acceptServeHTTP [("image/png", (2 : Nat)), ("image/jpeg", 1)]
      ⟨"GET", "", "image/*", ""⟩ = .handled 2 ∧
    (1 : Nat) ≠ 2 := by decide

/-- Invariance of the Accept matching condition under permutation of the
route table; shared by the iteration-order theorem below. -/
theorem accept_match_cond_perm {H : Type} {l1 l2 : List (String × H)} (hp : l1.Perm l2)
    (cl : List Clause) :
    ((∃ c ∈ cl, ∃ p ∈ l1, clauseMatches c p.1 = some true) ∨ "*/*" ∈ l1.map Prod.fst) ↔
      ((∃ c ∈ cl, ∃ p ∈ l2, clauseMatches c p.1 = some true) ∨ "*/*" ∈ l2.map Prod.fst) := by
  constructor
  · rintro (⟨c, hc, p, hpm, hm⟩ | hm)
    · exact Or.inl ⟨c, hc, p, hp.mem_iff.mp hpm, hm⟩
    · exact Or.inr ((hp.map Prod.fst).mem_iff.mp hm)
  · rintro (⟨c, hc, p, hpm, hm⟩ | hm)
    · exact Or.inl ⟨c, hc, p, hp.mem_iff.mpr hpm, hm⟩
    · exact Or.inr ((hp.map Prod.fst).mem_iff.mpr hm)

/-- C7 (amended): dispatch outcomes are functions of the route table as a
key-value set together with the iteration order.  For Method and
ContentType the iteration order is immaterial: any two enumerations of
the same table (permutations, with the keys unique as in a Go map) give
identical results, so repeated dispatches agree.  For Accept, whether
some handler is invoked, and whether `406` is written, is likewise
order-invariant — but which handler is invoked may differ between two
iteration orders when several keys match the winning clause (see the
counterexample), and Go leaves the order between two dispatches
unspecified. -/
theorem dispatch_iteration_order_invariance {H : Type} (l1 l2 : List (String × H)) (r : Request)
    (hp : l1.Perm l2) (hn : (l1.map Prod.fst).Nodup) :
    methodServeHTTP l1 r = methodServeHTTP l2 r ∧
    contentTypeServeHTTP l1 r = contentTypeServeHTTP l2 r ∧
    ((∀ k ∈ l1.map Prod.fst, 2 ≤ (goSplit k '/').length) →
      (((∃ h, acceptServeHTTP l1 r = .handled h) ↔
          (∃ h, acceptServeHTTP l2 r = .handled h)) ∧
        (acceptServeHTTP l1 r = .status statusNotAcceptable ↔
          acceptServeHTTP l2 r = .status statusNotAcceptable))) := by
  have hkperm := hp.map Prod.fst
  refine ⟨?_, ?_, ?_⟩
  · simp only [methodServeHTTP]
    rw [mapGet_perm hp hn]
    cases mapGet l2 (goToUpper r.method) with
    | some h => rfl
    | none =>
      rw [sortStrings_perm_eq (hkperm.append_right ["OPTIONS"])]
  · simp only [contentTypeServeHTTP]
    rw [possibleTypes_mapGet, possibleTypes_mapGet, mapGet_perm hp hn, mapGet_perm hp hn,
      mapGet_perm hp hn]
  · intro hw
    have hw2 : ∀ k ∈ l2.map Prod.fst, 2 ≤ (goSplit k '/').length := fun k hk =>
      hw k (hkperm.mem_iff.mpr hk)
    unfold acceptServeHTTP
    constructor
    · rw [acceptDispatch_handled_iff hw _, acceptDispatch_handled_iff hw2 _]
      exact accept_match_cond_perm hp _
    · rw [acceptDispatch_status_iff hw _, acceptDispatch_status_iff hw2 _,
        acceptDispatch_handled_iff hw _, acceptDispatch_handled_iff hw2 _,
        accept_match_cond_perm hp _]

/-- C7 (witness): a concrete table enumerated in two orders gives the
same Method and ContentType outcomes, and for Accept the same
handled/406 classification. -/
theorem dispatch_iteration_order_invariance_witness :
    (methodServeHTTP [("a/b", (1 : Nat)), ("c/d", 2)] ⟨"POST", "a/b", "a/b", ""⟩ =
        methodServeHTTP [("c/d", (2 : Nat)), ("a/b", 1)] ⟨"POST", "a/b", "a/b", ""⟩) ∧
    (contentTypeServeHTTP [("a/b", (1 : Nat)), ("c/d", 2)] ⟨"POST", "a/b", "a/b", ""⟩ =
        contentTypeServeHTTP [("c/d", (2 : Nat)), ("a/b", 1)] ⟨"POST", "a/b", "a/b", ""⟩) ∧
    (((∃ h, acceptServeHTTP [("a/b", (1 : Nat)), ("c/d", 2)] ⟨"POST", "a/b", "a/b", ""⟩ =
            .handled h) ↔
        (∃ h, acceptServeHTTP [("c/d", (2 : Nat)), ("a/b", 1)] ⟨"POST", "a/b", "a/b", ""⟩ =
            .handled h)) ∧
      (acceptServeHTTP [("a/b", (1 : Nat)), ("c/d", 2)] ⟨"POST", "a/b", "a/b", ""⟩ =
          .status statusNotAcceptable ↔
        acceptServeHTTP [("c/d", (2 : Nat)), ("a/b", 1)] ⟨"POST", "a/b", "a/b", ""⟩ =
          .status statusNotAcceptable)) :=
  let t := dispatch_iteration_order_invariance [("a/b", (1 : Nat)), ("c/d", 2)]
    [("c/d", (2 : Nat)), ("a/b", 1)] ⟨"POST", "a/b", "a/b", ""⟩ (by decide) (by decide)
  ⟨t.1, t.2.1, t.2.2 (by decide)⟩
